import Mathlib

/-!
Verification of the VGA text-buffer writer (`src/vga_buffer.rs`).

The Rust module drives an 80x25 text-mode grid: a `Writer` keeps a cursor
column and a current color attribute, always writes into the bottom row,
scrolls the whole grid up one row on newline or line overflow, and
sanitizes the input byte stream.  Below is a shallow embedding of that
code: the grid is a total function from (row, column) to a screen cell,
the sequential copy/clear loops are embedded as structural recursions that
perform the writes in the same order as the Rust `for` loops, and machine
bytes are `Nat` (all arithmetic here stays far below 2^8 except where the
source itself guarantees it).
-/

namespace VgaBuffer

/-- One VGA cell: an ASCII code point byte and a packed color byte
(`ScreenChar` in the source). -/
structure ScreenChar where
  ascii_character : Nat
  color_code : Nat
deriving DecidableEq

/-- `BUFFER_WIDTH` from the source. -/
def BUFFER_WIDTH : Nat := 80

/-- `BUFFER_HEIGHT` from the source. -/
def BUFFER_HEIGHT : Nat := 25

/-- The 16 VGA colors (`Color` in the source, a `repr(u8)` enum). -/
inductive Color
  | Black
  | Blue
  | Green
  | Cyan
  | Red
  | Magenta
  | Brown
  | LightGray
  | DarkGray
  | LightBlue
  | LightGreen
  | LightCyan
  | LightRed
  | Pink
  | Yellow
  | White
deriving DecidableEq, Fintype

/-- The `repr(u8)` discriminant of each `Color` variant (`color as u8`). -/
def Color.code : Color → Nat
  | .Black => 0
  | .Blue => 1
  | .Green => 2
  | .Cyan => 3
  | .Red => 4
  | .Magenta => 5
  | .Brown => 6
  | .LightGray => 7
  | .DarkGray => 8
  | .LightBlue => 9
  | .LightGreen => 10
  | .LightCyan => 11
  | .LightRed => 12
  | .Pink => 13
  | .Yellow => 14
  | .White => 15

/-- `ColorCode::new`: pack background in the high nibble and foreground in
the low nibble of one byte. -/
def ColorCode.new (foreground background : Color) : Nat :=
  (background.code <<< 4) ||| foreground.code

/-- The `Writer` struct: cursor column, current color byte, and the grid
(`buffer.chars`), modelled as a total function from row and column to a
cell. -/
structure Writer where
  column_position : Nat
  color_code : Nat
  buffer : Nat → Nat → ScreenChar

/-- The inner loop of `new_line`: for `col` in `0..n` (in increasing
order), read cell `(row, col)` from the current grid state and write it to
`(row - 1, col)`.  `copyCols row n b` is the grid after the first `n`
columns have been processed. -/
def copyCols (row : Nat) : Nat → (Nat → Nat → ScreenChar) → Nat → Nat → ScreenChar
  | 0, b => b
  | n + 1, b => fun r c =>
      if r = row - 1 ∧ c = n then copyCols row n b row n else copyCols row n b r c

/-- The outer loop of `new_line`: for `row` in `1..k+1` (in increasing
order), copy row `row` into row `row - 1` column by column.  `shiftRows k b`
is the grid after rows `1..k` (inclusive) have been processed. -/
def shiftRows : Nat → (Nat → Nat → ScreenChar) → Nat → Nat → ScreenChar
  | 0, b => b
  | k + 1, b => copyCols (k + 1) BUFFER_WIDTH (shiftRows k b)

/-- The loop of `clear_row`: for `col` in `0..n` (in increasing order),
write the given blank cell to `(row, col)`. -/
def clearCols (blank : ScreenChar) (row : Nat) : Nat → (Nat → Nat → ScreenChar) → Nat → Nat → ScreenChar
  | 0, b => b
  | n + 1, b => fun r c =>
      if r = row ∧ c = n then blank else clearCols blank row n b r c

/-- `Writer::clear_row`: overwrite every cell of `row` with a space in the
current color. -/
def Writer.clear_row (w : Writer) (row : Nat) : Writer :=
  { w with buffer := clearCols { ascii_character := 0x20, color_code := w.color_code } row BUFFER_WIDTH w.buffer }

/-- `Writer::new_line`: shift rows `1..BUFFER_HEIGHT` up by one, clear the
bottom row, and reset the cursor column to `0`. -/
def Writer.new_line (w : Writer) : Writer :=
  let w1 : Writer := { w with buffer := shiftRows (BUFFER_HEIGHT - 1) w.buffer }
  let w2 : Writer := w1.clear_row (BUFFER_HEIGHT - 1)
  { w2 with column_position := 0 }

/-- `Writer::write_byte`: a newline byte scrolls; any other byte first
scrolls if the line is full, then lands at `(BUFFER_HEIGHT - 1,
column_position)` with the current color, and the cursor advances. -/
def Writer.write_byte (w : Writer) (byte : Nat) : Writer :=
  if byte = 0x0a then
    w.new_line
  else
    let w1 : Writer := if BUFFER_WIDTH ≤ w.column_position then w.new_line else w
    let row := BUFFER_HEIGHT - 1
    let col := w1.column_position
    let cc := w1.color_code
    let w2 : Writer :=
      { w1 with buffer := fun r c =>
          if r = row ∧ c = col then { ascii_character := byte, color_code := cc }
          else w1.buffer r c }
    { w2 with column_position := w2.column_position + 1 }

/-- `Writer::write_string`: printable ASCII bytes and newlines pass
through to `write_byte`; every other byte is forwarded as `0xfe`. -/
def Writer.write_string (w : Writer) (s : List Nat) : Writer :=
  s.foldl (fun acc byte =>
    if (0x20 ≤ byte ∧ byte ≤ 0x7e) ∨ byte = 0x0a then acc.write_byte byte
    else acc.write_byte 0xfe) w

/-- The `fmt::Write` impl: `write_str` calls `write_string` and returns
`Ok(())` unconditionally (`fmt::Result` is modelled as `Except Unit Unit`). -/
def Writer.write_str (w : Writer) (s : List Nat) : Writer × Except Unit Unit :=
  (w.write_string s, Except.ok ())

/-- The global `WRITER` singleton, as first constructed by `lazy_static`:
cursor at column `0` and a yellow-on-black attribute.  The VGA memory it
points at has unknown initial contents, so the initial grid is a
parameter. -/
def WRITER (initial : Nat → Nat → ScreenChar) : Writer :=
  { column_position := 0
    color_code := ColorCode.new Color.Yellow Color.Black
    buffer := initial }

/-- The blank cell `clear_row` writes: a space in the given color. -/
def blankChar (cc : Nat) : ScreenChar :=
  { ascii_character := 0x20, color_code := cc }

/-- A concrete writer used to instantiate universally quantified theorems:
cursor at column `0`, color byte `7`, and a grid whose cells record their
own coordinates. -/
def testWriter : Writer :=
  { column_position := 0
    color_code := 7
    buffer := fun r c => { ascii_character := (r * 80 + c) % 256, color_code := 7 } }

/-- The sanitization applied by `write_string` to each input byte: the
byte itself when it is printable ASCII or a newline, `0xfe` otherwise.
This is the `match` inside `Writer::write_string`, factored out so the
substitution policy can be stated on its own. -/
def substByte (b : Nat) : Nat :=
  if (0x20 ≤ b ∧ b ≤ 0x7e) ∨ b = 0x0a then b else 0xfe

/-- `n` consecutive `write_byte(b'\n')` calls. -/
def writeNewlines : Nat → Writer → Writer
  | 0, w => w
  | n + 1, w => writeNewlines n (w.write_byte 0x0a)

/-- The (row, column) grid indices touched by `clear_row(row)`, in loop
order. -/
def clear_row_accesses (row : Nat) : List (Nat × Nat) :=
  (List.range BUFFER_WIDTH).map (fun col => (row, col))

/-- The (row, column) grid indices touched by `new_line`, in loop order:
for each `row` in `1..BUFFER_HEIGHT` and `col` in `0..BUFFER_WIDTH`, a
read at `(row, col)` and a write at `(row - 1, col)`, followed by the
writes of `clear_row(BUFFER_HEIGHT - 1)`. -/
def new_line_accesses : List (Nat × Nat) :=
  ((List.range' 1 (BUFFER_HEIGHT - 1)).flatMap (fun row =>
    (List.range BUFFER_WIDTH).flatMap (fun col => [(row, col), (row - 1, col)]))) ++
  clear_row_accesses (BUFFER_HEIGHT - 1)

/-- The (row, column) grid indices touched by `write_byte`: on a newline,
those of `new_line`; on a full line, those of `new_line` followed by the
write at column `0`; otherwise the single write at the cursor. -/
def Writer.write_byte_accesses (w : Writer) (byte : Nat) : List (Nat × Nat) :=
  if byte = 0x0a then new_line_accesses
  else if BUFFER_WIDTH ≤ w.column_position then
    new_line_accesses ++ [(BUFFER_HEIGHT - 1, 0)]
  else [(BUFFER_HEIGHT - 1, w.column_position)]

/-- A full row of printable bytes (80 copies of `A`), used to instantiate
the line-overflow theorem. -/
def row80 : List Nat := List.replicate 80 0x41

/-- A writer whose whole grid is blank in its own color, used to
instantiate the scroll fixed-point theorem. -/
def blankWriter : Writer :=
  { column_position := 0
    color_code := 7
    buffer := fun _ _ => blankChar 7 }

/-- `testWriter` with the cursor one short of the line end, used to refute
the strict cursor bound. -/
def writerAt79 : Writer :=
  { testWriter with column_position := 79 }

/-!  ### Loop characterizations -/

/-- After the inner copy loop has processed columns `0..n`, the grid holds
the original row `row` in row `row - 1` at those columns and is untouched
elsewhere.  (The reads never see an earlier write of the same loop: writes
go to row `row - 1`, reads come from row `row`, and even when `row = 0`
the overwritten cell had just been copied from itself.) -/
theorem copyCols_eq (row n : Nat) (b : Nat → Nat → ScreenChar) (r c : Nat) :
    copyCols row n b r c = if r = row - 1 ∧ c < n then b row c else b r c := by
  induction n generalizing r c with
  | zero => simp [copyCols]
  | succ n ih =>
    have hread : copyCols row n b row n = b row n := by
      rw [ih]
      simp
    show (if r = row - 1 ∧ c = n then copyCols row n b row n else copyCols row n b r c) = _
    by_cases h1 : r = row - 1 ∧ c = n
    · rw [if_pos h1, hread, if_pos ⟨h1.1, by omega⟩, h1.2]
    · rw [if_neg h1, ih]
      by_cases h2 : r = row - 1 ∧ c < n
      · rw [if_pos h2, if_pos ⟨h2.1, by omega⟩]
      · have h3 : ¬(r = row - 1 ∧ c < n + 1) := by
          rintro ⟨hr, hc⟩
          rcases Nat.lt_succ_iff_lt_or_eq.mp hc with h | h
          · exact h2 ⟨hr, h⟩
          · exact h1 ⟨hr, h⟩
        rw [if_neg h2, if_neg h3]

/-- After the clear loop has processed columns `0..n`, those cells of
`row` hold the blank cell and every other cell is untouched. -/
theorem clearCols_eq (blank : ScreenChar) (row n : Nat) (b : Nat → Nat → ScreenChar) (r c : Nat) :
    clearCols blank row n b r c = if r = row ∧ c < n then blank else b r c := by
  induction n with
  | zero => simp [clearCols]
  | succ n ih =>
    show (if r = row ∧ c = n then blank else clearCols blank row n b r c) = _
    by_cases h1 : r = row ∧ c = n
    · rw [if_pos h1, if_pos ⟨h1.1, by omega⟩]
    · rw [if_neg h1, ih]
      by_cases h2 : r = row ∧ c < n
      · rw [if_pos h2, if_pos ⟨h2.1, by omega⟩]
      · have h3 : ¬(r = row ∧ c < n + 1) := by
          rintro ⟨hr, hc⟩
          rcases Nat.lt_succ_iff_lt_or_eq.mp hc with h | h
          · exact h2 ⟨hr, h⟩
          · exact h1 ⟨hr, h⟩
        rw [if_neg h2, if_neg h3]

/-- After the outer shift loop has processed rows `1..k`, each row `r < k`
holds the original row `r + 1` (at in-range columns) and every other cell
is untouched. -/
theorem shiftRows_eq (k : Nat) (b : Nat → Nat → ScreenChar) (r c : Nat)
    (hc : c < BUFFER_WIDTH) :
    shiftRows k b r c = if r < k then b (r + 1) c else b r c := by
  induction k generalizing r with
  | zero => simp [shiftRows]
  | succ k ih =>
    show copyCols (k + 1) BUFFER_WIDTH (shiftRows k b) r c = _
    rw [copyCols_eq]
    have htop : shiftRows k b (k + 1) c = b (k + 1) c := by
      rw [ih]
      simp
    by_cases h1 : r = k
    · rw [if_pos ⟨by omega, hc⟩, htop, if_pos (by omega), h1]
    · have h2 : ¬(r = (k + 1) - 1 ∧ c < BUFFER_WIDTH) := by
        rintro ⟨hr, -⟩
        omega
      rw [if_neg h2, ih]
      by_cases h3 : r < k
      · rw [if_pos h3, if_pos (by omega)]
      · rw [if_neg h3, if_neg (by omega)]

/-!  ### `new_line`, `clear_row` and `write_byte` characterizations -/

/-- Pointwise description of the grid after `new_line`: at in-range
columns, the bottom row is blank, every row above it holds the former
contents of the row below, and rows past the grid are untouched. -/
theorem new_line_buffer (w : Writer) (r c : Nat) (hc : c < BUFFER_WIDTH) :
    (w.new_line).buffer r c =
      if r = BUFFER_HEIGHT - 1 then blankChar w.color_code
      else if r < BUFFER_HEIGHT - 1 then w.buffer (r + 1) c
      else w.buffer r c := by
  show clearCols (blankChar w.color_code) (BUFFER_HEIGHT - 1) BUFFER_WIDTH
      (shiftRows (BUFFER_HEIGHT - 1) w.buffer) r c = _
  rw [clearCols_eq, shiftRows_eq _ _ _ _ hc]
  by_cases h1 : r = BUFFER_HEIGHT - 1
  · rw [if_pos ⟨h1, hc⟩, if_pos h1]
  · rw [if_neg (by rintro ⟨hr, -⟩; exact h1 hr), if_neg h1]

/-- `new_line` resets the cursor column to `0`. -/
theorem new_line_column (w : Writer) : (w.new_line).column_position = 0 := rfl

/-- `new_line` does not change the current color byte. -/
theorem new_line_color (w : Writer) : (w.new_line).color_code = w.color_code := rfl

/-- A newline byte makes `write_byte` scroll. -/
theorem write_byte_newline (w : Writer) : w.write_byte 0x0a = w.new_line := by
  simp [Writer.write_byte]

/-- `write_byte` on a non-newline byte with room on the line: the byte
lands at the cursor in the bottom row, the cursor advances, and nothing
else changes. -/
theorem write_byte_no_scroll (w : Writer) (b : Nat) (hb : b ≠ 0x0a)
    (h : w.column_position < BUFFER_WIDTH) :
    (w.write_byte b).column_position = w.column_position + 1 ∧
    (w.write_byte b).color_code = w.color_code ∧
    ∀ r c, (w.write_byte b).buffer r c =
      if r = BUFFER_HEIGHT - 1 ∧ c = w.column_position then
        { ascii_character := b, color_code := w.color_code }
      else w.buffer r c := by
  have hnot : ¬ BUFFER_WIDTH ≤ w.column_position := by omega
  refine ⟨?_, ?_, fun r c => ?_⟩ <;>
    simp [Writer.write_byte, if_neg hb, if_neg hnot]

/-- `write_byte` on a non-newline byte with the line full: the writer
scrolls first, the byte lands at column `0` of the bottom row, and the
cursor ends at `1`. -/
theorem write_byte_scroll (w : Writer) (b : Nat) (hb : b ≠ 0x0a)
    (h : BUFFER_WIDTH ≤ w.column_position) :
    (w.write_byte b).column_position = 1 ∧
    (w.write_byte b).color_code = w.color_code ∧
    ∀ r c, (w.write_byte b).buffer r c =
      if r = BUFFER_HEIGHT - 1 ∧ c = 0 then
        { ascii_character := b, color_code := w.color_code }
      else (w.new_line).buffer r c := by
  refine ⟨?_, ?_, fun r c => ?_⟩ <;>
    simp [Writer.write_byte, if_neg hb, if_pos h, new_line_column, new_line_color]

/-- `write_byte` never changes the color byte. -/
theorem write_byte_color (w : Writer) (b : Nat) :
    (w.write_byte b).color_code = w.color_code := by
  by_cases hb : b = 0x0a
  · rw [hb, write_byte_newline, new_line_color]
  · by_cases h : BUFFER_WIDTH ≤ w.column_position
    · exact (write_byte_scroll w b hb h).2.1
    · exact (write_byte_no_scroll w b hb (by omega)).2.1

/-- The cursor column is at most `BUFFER_WIDTH` after any `write_byte`:
a newline or a full line resets it to `0` or `1`, and otherwise it was
below `BUFFER_WIDTH` and advanced by one. -/
theorem write_byte_column_le (w : Writer) (b : Nat) :
    (w.write_byte b).column_position ≤ BUFFER_WIDTH := by
  by_cases hb : b = 0x0a
  · rw [hb, write_byte_newline, new_line_column]
    omega
  · by_cases h : BUFFER_WIDTH ≤ w.column_position
    · rw [(write_byte_scroll w b hb h).1]
      show 1 ≤ 80
      omega
    · rw [(write_byte_no_scroll w b hb (by omega)).1]
      omega

/-- Unfolding of `write_string` on a cons cell. -/
theorem write_string_cons (w : Writer) (b : Nat) (t : List Nat) :
    w.write_string (b :: t) =
      Writer.write_string
        (if (0x20 ≤ b ∧ b ≤ 0x7e) ∨ b = 0x0a then w.write_byte b else w.write_byte 0xfe)
        t := rfl

/-- `write_string` never changes the color byte. -/
theorem write_string_color (w : Writer) (s : List Nat) :
    (w.write_string s).color_code = w.color_code := by
  induction s generalizing w with
  | nil => rfl
  | cons b t ih =>
    rw [write_string_cons]
    split
    · rw [ih, write_byte_color]
    · rw [ih, write_byte_color]

/-- `write_string` keeps the cursor column at most `BUFFER_WIDTH`. -/
theorem write_string_column_le (w : Writer) (s : List Nat)
    (h : w.column_position ≤ BUFFER_WIDTH) :
    (w.write_string s).column_position ≤ BUFFER_WIDTH := by
  induction s generalizing w with
  | nil => exact h
  | cons b t ih =>
    rw [write_string_cons]
    split
    · exact ih _ (write_byte_column_le w b)
    · exact ih _ (write_byte_column_le w 0xfe)

/-- Writing a printable string that fits in the rest of the line advances
the cursor by its length, deposits its bytes one per column of the bottom
row starting at the cursor, and leaves every other cell and the color
untouched. -/
theorem write_string_printable (s : List Nat) (w : Writer)
    (hs : ∀ b ∈ s, 0x20 ≤ b ∧ b ≤ 0x7e)
    (hlen : w.column_position + s.length ≤ BUFFER_WIDTH) :
    (w.write_string s).column_position = w.column_position + s.length ∧
    (w.write_string s).color_code = w.color_code ∧
    (∀ i, i < s.length →
      (w.write_string s).buffer (BUFFER_HEIGHT - 1) (w.column_position + i) =
        { ascii_character := s.getD i 0, color_code := w.color_code }) ∧
    (∀ r c, (r ≠ BUFFER_HEIGHT - 1 ∨ c < w.column_position ∨ w.column_position + s.length ≤ c) →
      (w.write_string s).buffer r c = w.buffer r c) := by
  induction s generalizing w with
  | nil =>
    refine ⟨rfl, rfl, fun i hi => absurd hi (by simp), fun r c _ => rfl⟩
  | cons b t ih =>
    have hb := hs b (List.mem_cons_self b t)
    have hbne : b ≠ 0x0a := by omega
    have hlen2 : w.column_position + t.length + 1 ≤ BUFFER_WIDTH := by
      simp only [List.length_cons] at hlen
      omega
    have hcol : w.column_position < BUFFER_WIDTH := by omega
    rw [write_string_cons, if_pos (Or.inl hb)]
    obtain ⟨hwcol, hwcc, hwbuf⟩ := write_byte_no_scroll w b hbne hcol
    obtain ⟨ihcol, ihcc, ihwrit, ihframe⟩ :=
      ih (w.write_byte b) (fun x hx => hs x (List.mem_cons_of_mem b hx))
        (by rw [hwcol]; omega)
    refine ⟨?_, ?_, ?_, ?_⟩
    · rw [ihcol, hwcol, List.length_cons]
      omega
    · rw [ihcc, hwcc]
    · intro i hi
      cases i with
      | zero =>
        have hfr := ihframe (BUFFER_HEIGHT - 1) w.column_position
          (Or.inr (Or.inl (by rw [hwcol]; omega)))
        rw [Nat.add_zero, hfr, hwbuf, if_pos ⟨rfl, rfl⟩, List.getD_cons_zero]
      | succ j =>
        have hj : j < t.length := by
          simp only [List.length_cons] at hi
          omega
        have hw := ihwrit j hj
        rw [hwcol, hwcc] at hw
        have harith : w.column_position + (j + 1) = w.column_position + 1 + j := by omega
        rw [harith, hw, List.getD_cons_succ]
    · intro r c hrc
      have hfr : r ≠ BUFFER_HEIGHT - 1 ∨ c < (w.write_byte b).column_position ∨
          (w.write_byte b).column_position + t.length ≤ c := by
        rw [hwcol]
        simp only [List.length_cons] at hrc
        rcases hrc with h | h | h
        · exact Or.inl h
        · exact Or.inr (Or.inl (by omega))
        · exact Or.inr (Or.inr (by omega))
      rw [ihframe r c hfr, hwbuf, if_neg ?_]
      rintro ⟨hr24, hcc0⟩
      simp only [List.length_cons] at hrc
      rcases hrc with h | h | h
      · exact h hr24
      · omega
      · omega

/-- After `n` newline writes, a cell still within reach of the original
grid holds the cell `n` rows below its position, and every other in-range
cell is blank in the (unchanged) current color. -/
theorem writeNewlines_buffer (n : Nat) (w : Writer) (r c : Nat)
    (hr : r < BUFFER_HEIGHT) (hc : c < BUFFER_WIDTH) :
    (writeNewlines n w).buffer r c =
      if r + n < BUFFER_HEIGHT then w.buffer (r + n) c
      else blankChar w.color_code := by
  induction n generalizing w with
  | zero =>
    rw [if_pos (by omega)]
    rfl
  | succ n ih =>
    show (writeNewlines n (w.write_byte 0x0a)).buffer r c = _
    rw [write_byte_newline, ih (w.new_line), new_line_color]
    by_cases h1 : r + n < BUFFER_HEIGHT
    · rw [if_pos h1, new_line_buffer _ _ _ hc]
      by_cases h2 : r + n = BUFFER_HEIGHT - 1
      · rw [if_pos h2, if_neg (by omega)]
      · rw [if_neg h2, if_pos (by omega), if_pos (by omega)]
        rfl
    · rw [if_neg h1, if_neg (by omega)]

/-- C8: the attribute encoder is total over all 16x16 color pairs and
produces `(background <<< 4) ||| foreground`; its low nibble is the
foreground code, its high nibble the background code, and the result fits
in one byte. -/
theorem colorCode_new_nibbles (fg bg : Color) :
    ColorCode.new fg bg = (bg.code <<< 4) ||| fg.code ∧
    ColorCode.new fg bg % 16 = fg.code ∧
    ColorCode.new fg bg / 16 = bg.code ∧
    ColorCode.new fg bg < 256 := by
  revert fg bg
  decide

/-- C1: `new_line` copies each row `1..24` into the row above it (so each
in-range cell of a row below the last ends up holding the former contents
of the row beneath it), blanks the last row with spaces in the current
color, and resets the cursor column to `0`. -/
theorem new_line_spec (w : Writer) (r c : Nat)
    (_hr : r < BUFFER_HEIGHT) (hc : c < BUFFER_WIDTH) :
    (r < BUFFER_HEIGHT - 1 → (w.new_line).buffer r c = w.buffer (r + 1) c) ∧
    (r = BUFFER_HEIGHT - 1 → (w.new_line).buffer r c = blankChar w.color_code) ∧
    (w.new_line).column_position = 0 := by
  refine ⟨fun h => ?_, fun h => ?_, new_line_column w⟩
  · rw [new_line_buffer _ _ _ hc, if_neg (by omega), if_pos h]
  · rw [new_line_buffer _ _ _ hc, if_pos h]

/-- Witness for `new_line_spec` at a concrete writer and cell. -/
theorem new_line_spec_witness :
    (testWriter.new_line).buffer 3 7 = testWriter.buffer 4 7 ∧
    (testWriter.new_line).buffer (BUFFER_HEIGHT - 1) 7 = blankChar testWriter.color_code ∧
    (testWriter.new_line).column_position = 0 :=
  ⟨(new_line_spec testWriter 3 7 (by decide) (by decide)).1 (by decide),
   (new_line_spec testWriter (BUFFER_HEIGHT - 1) 7 (by decide) (by decide)).2.1 rfl,
   (new_line_spec testWriter 3 7 (by decide) (by decide)).2.2⟩

/-- C2: `write_byte` scrolls on a newline byte; on any other byte it
scrolls first exactly when the line is full, then deposits the byte with
the current color at the cursor in the bottom row and advances the cursor
by one; it is a total function on writer states and bytes. -/
theorem write_byte_spec (w : Writer) (b : Nat) :
    (b = 0x0a → w.write_byte b = w.new_line) ∧
    (b ≠ 0x0a → w.column_position < BUFFER_WIDTH →
      (w.write_byte b).buffer (BUFFER_HEIGHT - 1) w.column_position =
        { ascii_character := b, color_code := w.color_code } ∧
      (w.write_byte b).column_position = w.column_position + 1 ∧
      ∀ r c, ¬(r = BUFFER_HEIGHT - 1 ∧ c = w.column_position) →
        (w.write_byte b).buffer r c = w.buffer r c) ∧
    (b ≠ 0x0a → BUFFER_WIDTH ≤ w.column_position →
      (w.write_byte b).buffer (BUFFER_HEIGHT - 1) 0 =
        { ascii_character := b, color_code := w.color_code } ∧
      (w.write_byte b).column_position = 0 + 1 ∧
      ∀ r c, ¬(r = BUFFER_HEIGHT - 1 ∧ c = 0) →
        (w.write_byte b).buffer r c = (w.new_line).buffer r c) := by
  refine ⟨fun hb => by rw [hb, write_byte_newline], fun hb h => ?_, fun hb h => ?_⟩
  · obtain ⟨h1, h2, h3⟩ := write_byte_no_scroll w b hb h
    exact ⟨by rw [h3, if_pos ⟨rfl, rfl⟩], h1, fun r c hrc => by rw [h3, if_neg hrc]⟩
  · obtain ⟨h1, h2, h3⟩ := write_byte_scroll w b hb h
    exact ⟨by rw [h3, if_pos ⟨rfl, rfl⟩], h1, fun r c hrc => by rw [h3, if_neg hrc]⟩

/-- Witness for `write_byte_spec` at a concrete writer and byte. -/
theorem write_byte_spec_witness :
    (testWriter.write_byte 0x41).buffer (BUFFER_HEIGHT - 1) testWriter.column_position =
      { ascii_character := 0x41, color_code := testWriter.color_code } ∧
    (testWriter.write_byte 0x41).column_position = testWriter.column_position + 1 ∧
    (testWriter.write_byte 0x41).buffer 5 5 = testWriter.buffer 5 5 :=
  ⟨((write_byte_spec testWriter 0x41).2.1 (by decide) (by decide)).1,
   ((write_byte_spec testWriter 0x41).2.1 (by decide) (by decide)).2.1,
   ((write_byte_spec testWriter 0x41).2.1 (by decide) (by decide)).2.2 5 5 (by decide)⟩

/-- C3: from column `0`, writing a printable string of length at most `80`
leaves the cursor at the string's length and the string's bytes, in order,
in the first cells of the bottom row with the active color. -/
theorem write_string_bottom_row (w : Writer) (s : List Nat)
    (h0 : w.column_position = 0)
    (hs : ∀ b ∈ s, 0x20 ≤ b ∧ b ≤ 0x7e)
    (hlen : s.length ≤ BUFFER_WIDTH) :
    (w.write_string s).column_position = s.length ∧
    ∀ i, i < s.length →
      (w.write_string s).buffer (BUFFER_HEIGHT - 1) i =
        { ascii_character := s.getD i 0, color_code := w.color_code } := by
  obtain ⟨h1, h2, h3, h4⟩ := write_string_printable s w hs (by omega)
  refine ⟨by rw [h1, h0, Nat.zero_add], fun i hi => ?_⟩
  have hw := h3 i hi
  rw [h0, Nat.zero_add] at hw
  exact hw

/-- Witness for `write_string_bottom_row` on the concrete string "Hi". -/
theorem write_string_bottom_row_witness :
    (testWriter.write_string [0x48, 0x69]).column_position = 2 ∧
    (testWriter.write_string [0x48, 0x69]).buffer (BUFFER_HEIGHT - 1) 0 =
      { ascii_character := [(0x48 : Nat), 0x69].getD 0 0, color_code := testWriter.color_code } ∧
    (testWriter.write_string [0x48, 0x69]).buffer (BUFFER_HEIGHT - 1) 1 =
      { ascii_character := [(0x48 : Nat), 0x69].getD 1 0, color_code := testWriter.color_code } := by
  obtain ⟨h1, h2⟩ := write_string_bottom_row testWriter [0x48, 0x69] rfl (by decide) (by decide)
  exact ⟨h1, h2 0 (by decide), h2 1 (by decide)⟩

/-- C4: from column `0`, after `80` printable bytes the next printable
byte causes one scroll before it is placed: the first `80` bytes (the
former bottom row) end up in row `23`, the 81st byte lands at column `0`
of row `24`, the rest of row `24` is blank, and the cursor ends at `1`. -/
theorem write_81st_byte_scrolls (w : Writer) (s : List Nat) (b : Nat)
    (h0 : w.column_position = 0)
    (hs : ∀ x ∈ s, 0x20 ≤ x ∧ x ≤ 0x7e)
    (hlen : s.length = BUFFER_WIDTH)
    (hb : 0x20 ≤ b ∧ b ≤ 0x7e) :
    ((w.write_string s).write_byte b).buffer (BUFFER_HEIGHT - 1) 0 =
      { ascii_character := b, color_code := w.color_code } ∧
    (∀ i, i < BUFFER_WIDTH →
      ((w.write_string s).write_byte b).buffer (BUFFER_HEIGHT - 2) i =
        (w.write_string s).buffer (BUFFER_HEIGHT - 1) i ∧
      ((w.write_string s).write_byte b).buffer (BUFFER_HEIGHT - 2) i =
        { ascii_character := s.getD i 0, color_code := w.color_code }) ∧
    (∀ c, 1 ≤ c → c < BUFFER_WIDTH →
      ((w.write_string s).write_byte b).buffer (BUFFER_HEIGHT - 1) c = blankChar w.color_code) ∧
    ((w.write_string s).write_byte b).column_position = 1 := by
  obtain ⟨h1, h2, h3, h4⟩ := write_string_printable s w hs (by omega)
  have hbne : b ≠ 0x0a := by omega
  have hfull : BUFFER_WIDTH ≤ (w.write_string s).column_position := by
    rw [h1, h0, hlen]
    omega
  obtain ⟨s1, s2, s3⟩ := write_byte_scroll (w.write_string s) b hbne hfull
  refine ⟨?_, fun i hi => ?_, fun c hc1 hc2 => ?_, s1⟩
  · rw [s3, if_pos ⟨rfl, rfl⟩, h2]
  · have hrow : ((w.write_string s).write_byte b).buffer (BUFFER_HEIGHT - 2) i =
        (w.write_string s).buffer (BUFFER_HEIGHT - 1) i := by
      rw [s3, if_neg (by rintro ⟨hr, -⟩; exact absurd hr (by decide)),
        new_line_buffer _ _ _ hi, if_neg (by decide), if_pos (by decide)]
      rfl
    refine ⟨hrow, ?_⟩
    rw [hrow]
    have hw := h3 i (by omega)
    rw [h0, Nat.zero_add] at hw
    exact hw
  · rw [s3, if_neg (by rintro ⟨-, hc0⟩; omega), new_line_buffer _ _ _ hc2,
      if_pos rfl, h2]

/-- Witness for `write_81st_byte_scrolls` on a concrete full row of `A`
followed by a `B`. -/
theorem write_81st_byte_scrolls_witness :
    ((testWriter.write_string row80).write_byte 0x42).buffer (BUFFER_HEIGHT - 1) 0 =
      { ascii_character := 0x42, color_code := testWriter.color_code } ∧
    ((testWriter.write_string row80).write_byte 0x42).buffer (BUFFER_HEIGHT - 2) 5 =
      { ascii_character := row80.getD 5 0, color_code := testWriter.color_code } ∧
    ((testWriter.write_string row80).write_byte 0x42).buffer (BUFFER_HEIGHT - 1) 7 =
      blankChar testWriter.color_code ∧
    ((testWriter.write_string row80).write_byte 0x42).column_position = 1 := by
  obtain ⟨h1, h2, h3, h4⟩ :=
    write_81st_byte_scrolls testWriter row80 0x42 rfl (by decide) (by decide) (by decide)
  exact ⟨h1, (h2 5 (by decide)).2, h3 7 (by decide) (by decide), h4⟩

/-- Counterexample to C5 as stated: the byte `0xfe` is outside the
printable range and is not a newline, yet `write_string` forwards it as
exactly its original value, which then lands in the grid unchanged. -/
theorem nonprintable_identity_at_fe :
    ¬(0x20 ≤ 0xfe ∧ (0xfe : Nat) ≤ 0x7e) ∧ (0xfe : Nat) ≠ 0x0a ∧
    substByte 0xfe = 0xfe ∧
    (testWriter.write_string [0xfe]).buffer (BUFFER_HEIGHT - 1) 0 =
      { ascii_character := 0xfe, color_code := testWriter.color_code } := by
  refine ⟨by decide, by decide, by decide, ?_⟩
  decide

/-- C5 (amended): `write_str` always returns `Ok`, `write_string` is total
and forwards each byte through the substitution `substByte` (printable
ASCII and newline bytes unchanged, every other byte as `0xfe`), so a
non-printable byte other than `0xfe` itself is never forwarded as its
original value. -/
theorem write_string_substitution (w : Writer) (s : List Nat) (b : Nat) :
    (w.write_str s).2 = Except.ok () ∧
    w.write_string s = s.foldl (fun acc x => acc.write_byte (substByte x)) w ∧
    (((0x20 ≤ b ∧ b ≤ 0x7e) ∨ b = 0x0a) → substByte b = b) ∧
    (¬((0x20 ≤ b ∧ b ≤ 0x7e) ∨ b = 0x0a) → substByte b = 0xfe) ∧
    (¬((0x20 ≤ b ∧ b ≤ 0x7e) ∨ b = 0x0a) → b ≠ 0xfe → substByte b ≠ b) := by
  refine ⟨rfl, ?_, fun h => if_pos h, fun h => if_neg h, fun h hne => ?_⟩
  · induction s generalizing w with
    | nil => rfl
    | cons x t ih =>
      rw [write_string_cons, List.foldl_cons, ih]
      unfold substByte
      split
      · rfl
      · rfl
  · unfold substByte
    rw [if_neg h]
    omega

/-- Witness for `write_string_substitution` at the bell byte `0x07`. -/
theorem write_string_substitution_witness :
    (testWriter.write_str [(0x48 : Nat)]).2 = Except.ok () ∧
    substByte 0x07 = 0xfe ∧ substByte 0x07 ≠ 0x07 := by
  obtain ⟨h1, h2, h3, h4, h5⟩ := write_string_substitution testWriter [0x48] 0x07
  exact ⟨h1, h4 (by decide), h5 (by decide) (by decide)⟩

/-- Counterexample to C6 as stated: a writer at column `79` satisfies the
claimed strict invariant, yet one printable `write_byte` leaves the cursor
at `80`, outside `[0, 80)`. -/
theorem column_strict_bound_refuted :
    writerAt79.column_position < BUFFER_WIDTH ∧
    (writerAt79.write_byte 0x41).column_position = 80 ∧
    ¬((writerAt79.write_byte 0x41).column_position < BUFFER_WIDTH) := by
  refine ⟨by decide, ?_, by decide⟩
  decide

/-- C6 (amended): the preserved writer invariant is `column_position ≤ 80`
(the bound is inclusive: a write into the last column leaves the cursor at
`80` until the next write scrolls); every public operation preserves it
from any state satisfying it. -/
theorem column_invariant_le (w : Writer) (b : Nat) (s : List Nat)
    (h : w.column_position ≤ BUFFER_WIDTH) :
    (w.write_byte b).column_position ≤ BUFFER_WIDTH ∧
    (w.write_string s).column_position ≤ BUFFER_WIDTH ∧
    (w.new_line).column_position ≤ BUFFER_WIDTH := by
  refine ⟨write_byte_column_le w b, write_string_column_le w s h, ?_⟩
  rw [new_line_column]
  omega

/-- Witness for `column_invariant_le` at a concrete writer, byte and
string. -/
theorem column_invariant_le_witness :
    (testWriter.write_byte 0x41).column_position ≤ BUFFER_WIDTH ∧
    (testWriter.write_string [0x48, 0x69]).column_position ≤ BUFFER_WIDTH ∧
    (testWriter.new_line).column_position ≤ BUFFER_WIDTH :=
  column_invariant_le testWriter 0x41 [0x48, 0x69] (by decide)

/-- C7: `25` consecutive newline writes blank every in-range cell with the
current color, and one further newline write on an all-blank grid leaves
every in-range cell blank. -/
theorem repeated_newlines_blank (w : Writer) (r c : Nat)
    (hr : r < BUFFER_HEIGHT) (hc : c < BUFFER_WIDTH) :
    (writeNewlines BUFFER_HEIGHT w).buffer r c = blankChar w.color_code ∧
    ((∀ r2 c2, r2 < BUFFER_HEIGHT → c2 < BUFFER_WIDTH → w.buffer r2 c2 = blankChar w.color_code) →
      (w.write_byte 0x0a).buffer r c = blankChar w.color_code) := by
  constructor
  · rw [writeNewlines_buffer BUFFER_HEIGHT w r c hr hc, if_neg (by omega)]
  · intro hblank
    rw [write_byte_newline, new_line_buffer _ _ _ hc]
    by_cases h1 : r = BUFFER_HEIGHT - 1
    · rw [if_pos h1]
    · rw [if_neg h1, if_pos (by omega)]
      exact hblank (r + 1) c (by omega) hc

/-- Witness for `repeated_newlines_blank` at a concrete writer and cells. -/
theorem repeated_newlines_blank_witness :
    (writeNewlines BUFFER_HEIGHT blankWriter).buffer 0 0 = blankChar blankWriter.color_code ∧
    (blankWriter.write_byte 0x0a).buffer 3 2 = blankChar blankWriter.color_code :=
  ⟨(repeated_newlines_blank blankWriter 0 0 (by decide) (by decide)).1,
   (repeated_newlines_blank blankWriter 3 2 (by decide) (by decide)).2
     (fun r2 c2 h1 h2 => rfl)⟩

/-- Every index in the constant access list of `new_line` is in bounds. -/
theorem new_line_accesses_bounded :
    ∀ p ∈ new_line_accesses, p.1 < BUFFER_HEIGHT ∧ p.2 < BUFFER_WIDTH := by
  intro p hp
  unfold new_line_accesses clear_row_accesses at hp
  rcases List.mem_append.mp hp with h1 | h1
  · obtain ⟨row, hrow, h2⟩ := List.mem_flatMap.mp h1
    obtain ⟨col, hcol, h3⟩ := List.mem_flatMap.mp h2
    obtain ⟨hrow1, hrow2⟩ := List.mem_range'_1.mp hrow
    have hcol2 : col < BUFFER_WIDTH := List.mem_range.mp hcol
    have hH : 1 + (BUFFER_HEIGHT - 1) = BUFFER_HEIGHT := by decide
    rcases List.mem_cons.mp h3 with h4 | h4
    · rw [h4]
      exact ⟨by omega, hcol2⟩
    · rw [List.mem_singleton.mp h4]
      exact ⟨by omega, hcol2⟩
  · obtain ⟨col, hcol, h2⟩ := List.mem_map.mp h1
    have hcol2 : col < BUFFER_WIDTH := List.mem_range.mp hcol
    rw [← h2]
    refine ⟨?_, hcol2⟩
    show BUFFER_HEIGHT - 1 < BUFFER_HEIGHT
    decide

/-- C9: the cursor column is at most `80` in the initial writer and after
every operation, and under that bound every grid index touched by
`write_byte`, `new_line` and `clear_row` has row below `25` and column
below `80`. -/
theorem grid_accesses_in_bounds (w : Writer) (b : Nat) (s : List Nat)
    (init : Nat → Nat → ScreenChar)
    (h : w.column_position ≤ BUFFER_WIDTH) :
    (WRITER init).column_position ≤ BUFFER_WIDTH ∧
    (w.write_byte b).column_position ≤ BUFFER_WIDTH ∧
    (w.new_line).column_position ≤ BUFFER_WIDTH ∧
    (w.write_string s).column_position ≤ BUFFER_WIDTH ∧
    (∀ p ∈ w.write_byte_accesses b, p.1 < BUFFER_HEIGHT ∧ p.2 < BUFFER_WIDTH) ∧
    (∀ p ∈ new_line_accesses, p.1 < BUFFER_HEIGHT ∧ p.2 < BUFFER_WIDTH) ∧
    (∀ p ∈ clear_row_accesses (BUFFER_HEIGHT - 1), p.1 < BUFFER_HEIGHT ∧ p.2 < BUFFER_WIDTH) := by
  have hnl : ∀ p ∈ new_line_accesses, p.1 < BUFFER_HEIGHT ∧ p.2 < BUFFER_WIDTH :=
    new_line_accesses_bounded
  have hcr : ∀ p ∈ clear_row_accesses (BUFFER_HEIGHT - 1),
      p.1 < BUFFER_HEIGHT ∧ p.2 < BUFFER_WIDTH := by decide
  refine ⟨Nat.zero_le _, write_byte_column_le w b, by rw [new_line_column]; omega,
    write_string_column_le w s h, ?_, hnl, hcr⟩
  intro p hp
  unfold Writer.write_byte_accesses at hp
  by_cases hb : b = 0x0a
  · rw [if_pos hb] at hp
    exact hnl p hp
  · rw [if_neg hb] at hp
    by_cases hfull : BUFFER_WIDTH ≤ w.column_position
    · rw [if_pos hfull] at hp
      rcases List.mem_append.mp hp with h1 | h1
      · exact hnl p h1
      · rw [List.mem_singleton.mp h1]
        exact ⟨by decide, by decide⟩
    · rw [if_neg hfull, List.mem_singleton] at hp
      rw [hp]
      refine ⟨?_, ?_⟩
      · show BUFFER_HEIGHT - 1 < BUFFER_HEIGHT
        decide
      · show w.column_position < BUFFER_WIDTH
        omega

/-- Witness for `grid_accesses_in_bounds` at a concrete writer, byte and
string, including one concrete access of each kind. -/
theorem grid_accesses_in_bounds_witness :
    (WRITER testWriter.buffer).column_position ≤ BUFFER_WIDTH ∧
    (testWriter.write_byte 0x41).column_position ≤ BUFFER_WIDTH ∧
    (testWriter.new_line).column_position ≤ BUFFER_WIDTH ∧
    (testWriter.write_string [0x48]).column_position ≤ BUFFER_WIDTH ∧
    ((1, 0) ∈ new_line_accesses → (1 : Nat) < BUFFER_HEIGHT ∧ (0 : Nat) < BUFFER_WIDTH) := by
  obtain ⟨h1, h2, h3, h4, h5, h6, h7⟩ :=
    grid_accesses_in_bounds testWriter 0x41 [0x48] testWriter.buffer (by decide)
  exact ⟨h1, h2, h3, h4, fun hm => h6 (1, 0) hm⟩

/-- C10: no writer operation changes the color byte: `write_byte`,
`write_string`, `new_line` and `clear_row` all leave `color_code` exactly
as it was, for every state and input. -/
theorem writer_ops_preserve_color (w : Writer) (b row : Nat) (s : List Nat) :
    (w.write_byte b).color_code = w.color_code ∧
    (w.write_string s).color_code = w.color_code ∧
    (w.new_line).color_code = w.color_code ∧
    (w.clear_row row).color_code = w.color_code :=
  ⟨write_byte_color w b, write_string_color w s, new_line_color w, rfl⟩

end VgaBuffer
